import Mathlib

/-!
Verification of the `orcid` repository's work-aggregation pipeline.

This file gives a shallow embedding, in Lean 4, of the pure core of the
repository: title normalization (`simplifyString` in `orcid.go`),
first-seen-wins deduplication (`filterUniqueTitles` in `orcid.go`),
grouping by work type and year (`groupByTypeAndYear` and `getYearsSorted`
in `cmd/orcid-pull/mediawiki.go`), the external-ID URL backfill
(`updateExternalIDsURL` in `orcid.go`), the batched detail fetch
(`fetchWorks` in `orcid.go`), identifier extraction (`IDFromURL` in the
library), and the IEEE citation-author heuristic
(`parseCitationAuthorsIEEE` in `cmd/orcid-pull/citations.go`).

Go strings are modelled as Lean `String` (a wrapper around `List Char`);
Go's per-rune `strings.ToLower` is modelled by `Char.toLower`, which
performs the same simple-case lowering on the basic latin range and is
the identity elsewhere.  Effectful operations (HTTP fetches) are
modelled by passing the fetch results in explicitly.
-/

namespace OrcidRepo

/-- One `<external-id>` element of a work: the source struct has fields
`Type`, `Value`, `URL` (`Type` is renamed `idType` because `Type` is a
Lean keyword). -/
structure ExternalID where
  idType : String
  value : String
  url : String
deriving DecidableEq, Repr

/-- An ORCID contributor, `Contributor { Name string }` in the source. -/
structure Contributor where
  name : String
deriving DecidableEq, Repr

/-- The fields of the source's `Work` struct used by the claims:
`Title`, `Year`, `Type` (renamed `workType`), `ExternalIDs`, the
convenience field `DoiURI`, and the detail locator `Path`. -/
structure Work where
  title : String
  year : Int
  workType : String
  externalIDs : List ExternalID
  doiURI : String
  path : String
deriving DecidableEq, Repr

/-! ## Title normalization: `simplifyString` (orcid.go:304-314) -/

/-- Go `strings.ReplaceAll(s, string(c), "")`: removing every occurrence
of the single character `c`. -/
def replaceAllEmpty (s : List Char) (c : Char) : List Char :=
  s.filter (fun a => !(a == c))

/-- Core of `simplifyString` on character lists: lowercase, then remove
every space, `(`, `)` and `-`, in that order, mirroring the nested
`strings.ReplaceAll` calls of the source. -/
def simplifyCore (s : List Char) : List Char :=
  replaceAllEmpty
    (replaceAllEmpty
      (replaceAllEmpty
        (replaceAllEmpty (s.map Char.toLower) ' ')
        '(')
      ')')
    '-'

/-- `simplifyString` of orcid.go: the title-normalization function. -/
def simplifyString (s : String) : String :=
  String.mk (simplifyCore s.data)

/-- The set of characters removed by `simplifyString`. -/
def strippedChar (c : Char) : Bool :=
  c == ' ' || c == '(' || c == ')' || c == '-'

theorem char_toNat_ofNat_valid (n : Nat) (h : n < 55296) :
    (Char.ofNat n).toNat = n := by
  have hv : n.isValidChar := Or.inl h
  rw [Char.ofNat, dif_pos hv]
  rfl

theorem char_toLower_idem (c : Char) : c.toLower.toLower = c.toLower := by
  unfold Char.toLower
  by_cases h : c.toNat ≥ 65 ∧ c.toNat ≤ 90
  · rw [if_pos h]
    have h2 : (Char.ofNat (c.toNat + 32)).toNat = c.toNat + 32 :=
      char_toNat_ofNat_valid _ (by omega)
    rw [if_neg (by omega)]
  · rw [if_neg h, if_neg h]

theorem simplifyCore_eq_filter (s : List Char) :
    simplifyCore s = (s.map Char.toLower).filter (fun c => !(strippedChar c)) := by
  unfold simplifyCore replaceAllEmpty
  rw [List.filter_filter, List.filter_filter, List.filter_filter]
  apply List.filter_congr
  intro a _
  simp only [strippedChar, Bool.not_or]
  cases Decidable.em (a = ' ') <;> cases Decidable.em (a = '(') <;>
    cases Decidable.em (a = ')') <;> cases Decidable.em (a = '-') <;>
    simp_all [Bool.and_assoc, Bool.and_comm, Bool.and_left_comm]

theorem mem_simplifyCore_fixed {a : Char} {s : List Char}
    (h : a ∈ simplifyCore s) : a.toLower = a := by
  rw [simplifyCore_eq_filter] at h
  have h1 : a ∈ s.map Char.toLower := List.mem_of_mem_filter h
  obtain ⟨b, _, hb⟩ := List.mem_map.mp h1
  rw [← hb, char_toLower_idem]

theorem simplifyCore_idem (s : List Char) :
    simplifyCore (simplifyCore s) = simplifyCore s := by
  have hmap : (simplifyCore s).map Char.toLower = simplifyCore s := by
    have h : (simplifyCore s).map Char.toLower = (simplifyCore s).map id :=
      List.map_congr_left (fun a ha => mem_simplifyCore_fixed ha)
    rw [h, List.map_id]
  rw [simplifyCore_eq_filter (simplifyCore s), hmap]
  conv_lhs => rw [simplifyCore_eq_filter s]
  rw [List.filter_filter]
  have hp : (fun a => !strippedChar a && !strippedChar a) =
      (fun a => !strippedChar a) :=
    funext fun a => by cases strippedChar a <;> rfl
  rw [hp, ← simplifyCore_eq_filter]

/-- C8: `simplifyString` (the spec's `NormalizeTitle`) is idempotent:
applying it twice gives the same result as applying it once, for every
string. -/
theorem simplifyString_idem (s : String) :
    simplifyString (simplifyString s) = simplifyString s := by
  unfold simplifyString
  exact congrArg String.mk (simplifyCore_idem s.data)

/-! ## Deduplication: `filterUniqueTitles` (orcid.go:283-301) -/

/-- The inner loop of `filterUniqueTitles`: does some already-kept work
have the same normalized title as `w`? -/
def titleMatches (uniqueWorks : List Work) (w : Work) : Bool :=
  uniqueWorks.any (fun uw => simplifyString w.title == simplifyString uw.title)

/-- `filterUniqueTitles` of orcid.go: iterate the input in order,
appending a work to the accumulator only when no previously kept work
has an equal normalized title. -/
def filterUniqueTitles (works : List Work) : List Work :=
  works.foldl
    (fun uniqueWorks w =>
      if titleMatches uniqueWorks w then uniqueWorks else uniqueWorks ++ [w])
    []

/-- Spec-side definition (the refinement target of claim C1, phrased
from the spec's words): keep the first occurrence of each
normalized-title class, dropping every later work whose normalized
title equals that of an earlier one. -/
def firstOccurrencesSpec : List Work → List Work
  | [] => []
  | w :: ws =>
    w :: firstOccurrencesSpec
      (ws.filter (fun v => !(simplifyString v.title == simplifyString w.title)))
termination_by l => l.length
decreasing_by
  simp only [List.length_cons]
  exact Nat.lt_succ_of_le (List.length_filter_le _ _)

/-- Recursive restatement of the `filterUniqueTitles` fold, carrying the
accumulator of already-kept works. -/
def dedupAux (acc : List Work) : List Work → List Work
  | [] => []
  | w :: ws =>
    if titleMatches acc w then dedupAux acc ws
    else w :: dedupAux (acc ++ [w]) ws

theorem foldl_dedup_eq (ws : List Work) :
    ∀ acc : List Work,
      ws.foldl (fun u w => if titleMatches u w then u else u ++ [w]) acc
        = acc ++ dedupAux acc ws := by
  induction ws with
  | nil => intro acc; simp [dedupAux]
  | cons w ws ih =>
    intro acc
    simp only [List.foldl_cons, dedupAux]
    by_cases h : titleMatches acc w
    · rw [if_pos h, if_pos h, ih]
    · rw [if_neg h, if_neg h, ih]
      simp

theorem dedupAux_sublist (ws : List Work) :
    ∀ acc, (dedupAux acc ws).Sublist ws := by
  induction ws with
  | nil => intro acc; simp [dedupAux]
  | cons w ws ih =>
    intro acc
    simp only [dedupAux]
    by_cases h : titleMatches acc w
    · rw [if_pos h]; exact (ih acc).cons w
    · rw [if_neg h]; exact (ih (acc ++ [w])).cons₂ w

theorem titleMatches_append (acc : List Work) (w v : Work) :
    titleMatches (acc ++ [w]) v =
      (titleMatches acc v || (simplifyString v.title == simplifyString w.title)) := by
  simp [titleMatches]

theorem dedupAux_not_matches (ws : List Work) :
    ∀ acc, ∀ v ∈ dedupAux acc ws, titleMatches acc v = false := by
  induction ws with
  | nil => intro acc v hv; simp [dedupAux] at hv
  | cons w ws ih =>
    intro acc v hv
    simp only [dedupAux] at hv
    by_cases h : titleMatches acc w
    · rw [if_pos h] at hv; exact ih acc v hv
    · rw [if_neg h] at hv
      rcases List.mem_cons.mp hv with h1 | h1
      · subst h1
        simp only [Bool.not_eq_true] at h
        exact h
      · have h2 := ih (acc ++ [w]) v h1
        rw [titleMatches_append] at h2
        exact (Bool.or_eq_false_iff.mp h2).1

theorem dedupAux_pairwise (ws : List Work) :
    ∀ acc, (dedupAux acc ws).Pairwise
      (fun a b => ¬ simplifyString a.title = simplifyString b.title) := by
  induction ws with
  | nil => intro acc; simp [dedupAux]
  | cons w ws ih =>
    intro acc
    simp only [dedupAux]
    by_cases h : titleMatches acc w
    · rw [if_pos h]; exact ih acc
    · rw [if_neg h]
      refine List.Pairwise.cons ?_ (ih (acc ++ [w]))
      intro b hb
      have h2 := dedupAux_not_matches ws (acc ++ [w]) b hb
      rw [titleMatches_append] at h2
      have h3 := (Bool.or_eq_false_iff.mp h2).2
      intro heq
      rw [heq] at h3
      simp at h3

theorem dedupAux_eq_spec (ws : List Work) :
    ∀ acc, dedupAux acc ws
      = firstOccurrencesSpec (ws.filter (fun v => !titleMatches acc v)) := by
  induction ws with
  | nil => intro acc; simp [dedupAux, firstOccurrencesSpec]
  | cons w ws ih =>
    intro acc
    simp only [dedupAux]
    by_cases h : titleMatches acc w
    · rw [if_pos h]
      have hw : (fun v => !titleMatches acc v) w = false := by
        simp [h]
      rw [List.filter_cons_of_neg (by simp [h]), ih]
    · rw [if_neg h]
      rw [List.filter_cons_of_pos (by simp [Bool.not_eq_true] at h; simp [h])]
      rw [firstOccurrencesSpec, ih (acc ++ [w])]
      congr 1
      rw [List.filter_filter]
      congr 1
      apply List.filter_congr
      intro a _
      rw [titleMatches_append]
      cases hta : titleMatches acc a <;>
        cases htw : (simplifyString a.title == simplifyString w.title) <;> rfl

/-- C1: for every input list, `filterUniqueTitles` returns works with
pairwise-distinct normalized titles, the output is a subsequence of the
input (original relative order preserved), and it equals the
first-occurrence-per-normalized-title-class selection of the input. -/
theorem filterUniqueTitles_correct (works : List Work) :
    (filterUniqueTitles works).Pairwise
        (fun a b => ¬ simplifyString a.title = simplifyString b.title)
      ∧ (filterUniqueTitles works).Sublist works
      ∧ filterUniqueTitles works = firstOccurrencesSpec works := by
  have he : filterUniqueTitles works = dedupAux [] works := by
    unfold filterUniqueTitles
    rw [foldl_dedup_eq]
    simp
  refine ⟨?_, ?_, ?_⟩
  · rw [he]; exact dedupAux_pairwise works []
  · rw [he]; exact dedupAux_sublist works []
  · rw [he, dedupAux_eq_spec]
    congr 1
    simp [titleMatches]

/-! ## Grouping: `getYearsSorted` (mediawiki.go:180-196) and
`groupByTypeAndYear` (mediawiki.go:198-245) -/

/-- Display category `t1` of `groupByTypeAndYear`. -/
def catJournal : String := "Journal Articles"

/-- Display category `t2` of `groupByTypeAndYear`. -/
def catConference : String := "Conference Papers"

/-- Display category `t3` of `groupByTypeAndYear`. -/
def catOther : String := "Other"

/-- The `switch w.Type` of `groupByTypeAndYear`: the display category a
work is appended to. -/
def categoryOf (w : Work) : String :=
  if w.workType = "journal-article" then catJournal
  else if w.workType = "conference-paper" then catConference
  else catOther

/-- The `byType[cat]` slice: appending each work to its category's
slice in input order is an order-preserving filter. -/
def byTypeList (works : List Work) (cat : String) : List Work :=
  works.filter (fun w => categoryOf w == cat)

/-- `getYearsSorted`: the distinct years of the given works, sorted
descending.  Go collects the distinct years as the keys of a map and
sorts them with `sort.Slice` and a `>` comparator; a list of distinct
integers has a unique descending arrangement, modelled by insertion
sort with `≥` on the deduplicated year list. -/
def getYearsSorted (works : List Work) : List Int :=
  List.insertionSort (fun a b : Int => a ≥ b) ((works.map Work.year).dedup)

/-- The inner loop of `groupByTypeAndYear`: one bucket per sorted year,
holding the category's works of exactly that year, in input order. -/
def bucketsFor (group : List Work) : List (List Work) :=
  (getYearsSorted group).map (fun y => group.filter (fun w => w.year == y))

/-- `groupByTypeAndYear`: a map from the three fixed display categories
(always present, initialized before the switch) to their year-bucketed
works; the map is modelled as an association list with the three keys. -/
def groupByTypeAndYear (works : List Work) : List (String × List (List Work)) :=
  [(catJournal, bucketsFor (byTypeList works catJournal)),
   (catConference, bucketsFor (byTypeList works catConference)),
   (catOther, bucketsFor (byTypeList works catOther))]

theorem bucketsFor_sum (g : List Work) :
    ((bucketsFor g).map List.length).sum = g.length := by
  unfold bucketsFor
  rw [List.map_map]
  have h1 : (List.length ∘ fun y => g.filter (fun w => w.year == y))
      = fun y => (g.map Work.year).count y := by
    funext y
    simp only [Function.comp_apply]
    rw [← List.countP_eq_length_filter, List.count_eq_countP, List.countP_map]
    rfl
  rw [h1]
  have h2 : List.Perm (getYearsSorted g) ((g.map Work.year).dedup) :=
    List.perm_insertionSort _ _
  rw [List.Perm.sum_eq (h2.map _)]
  rw [List.sum_map_count_dedup_eq_length, List.length_map]

theorem categoryOf_mem (w : Work) :
    categoryOf w = catJournal ∨ categoryOf w = catConference
      ∨ categoryOf w = catOther := by
  unfold categoryOf
  by_cases h1 : w.workType = "journal-article"
  · simp [h1]
  · by_cases h2 : w.workType = "conference-paper" <;> simp [h1, h2]

theorem cat_distinct :
    catJournal ≠ catConference ∧ catJournal ≠ catOther
      ∧ catConference ≠ catOther := by
  refine ⟨?_, ?_, ?_⟩ <;> decide

theorem byType_length_sum (works : List Work) :
    (byTypeList works catJournal).length
      + (byTypeList works catConference).length
      + (byTypeList works catOther).length = works.length := by
  induction works with
  | nil => rfl
  | cons w ws ih =>
    unfold byTypeList at ih ⊢
    obtain ⟨d1, d2, d3⟩ := cat_distinct
    rcases categoryOf_mem w with h | h | h <;>
      simp [List.filter_cons, h, d1, d2, d3, d1.symm, d2.symm, d3.symm] <;>
      omega

/-- C2: grouping drops no work: the bucket lengths over all three
categories sum to the input length, and the three fixed categories are
always present as keys (in particular an empty category is present with
an empty bucket list). -/
theorem groupByTypeAndYear_complete (works : List Work) :
    ((groupByTypeAndYear works).map (fun kv => (kv.2.map List.length).sum)).sum
        = works.length
      ∧ (groupByTypeAndYear works).map Prod.fst
        = [catJournal, catConference, catOther] := by
  constructor
  · simp only [groupByTypeAndYear, List.map_cons, List.map_nil,
      List.sum_cons, List.sum_nil]
    rw [bucketsFor_sum, bucketsFor_sum, bucketsFor_sum]
    have h := byType_length_sum works
    omega
  · rfl

theorem getYearsSorted_nodup (g : List Work) : (getYearsSorted g).Nodup :=
  (List.perm_insertionSort _ _).nodup_iff.mpr (List.nodup_dedup _)

theorem getYearsSorted_sorted (g : List Work) :
    (getYearsSorted g).Pairwise (fun a b : Int => a ≥ b) :=
  List.sorted_insertionSort _ _

theorem getYearsSorted_strict (g : List Work) :
    (getYearsSorted g).Pairwise (fun a b : Int => b < a) := by
  have h1 := (getYearsSorted_sorted g).and (getYearsSorted_nodup g)
  exact h1.imp (fun hab => lt_of_le_of_ne hab.1 (Ne.symm hab.2))

theorem mem_getYearsSorted {y : Int} {g : List Work}
    (h : y ∈ getYearsSorted g) : ∃ w ∈ g, w.year = y := by
  have h1 : y ∈ (g.map Work.year).dedup :=
    ((List.perm_insertionSort _ _).mem_iff).mp h
  have h2 : y ∈ g.map Work.year := (List.mem_dedup).mp h1
  obtain ⟨w, hw, hwy⟩ := List.mem_map.mp h2
  exact ⟨w, hw, hwy⟩

/-- C3: for every input list and each of the three categories, the year
buckets are nonempty, each holds works of exactly one year, bucket
years strictly decrease with position, and every bucket is a
subsequence of the input (original relative order preserved). -/
theorem groupByTypeAndYear_year_order (works : List Work) :
    ∀ kv ∈ groupByTypeAndYear works,
      (∀ b ∈ kv.2, b ≠ [] ∧ ∃ y : Int, ∀ w ∈ b, w.year = y)
        ∧ kv.2.Pairwise
            (fun b1 b2 => ∀ w1 ∈ b1, ∀ w2 ∈ b2, w2.year < w1.year)
        ∧ ∀ b ∈ kv.2, b.Sublist works := by
  have main : ∀ cat : String,
      (∀ b ∈ bucketsFor (byTypeList works cat),
          b ≠ [] ∧ ∃ y : Int, ∀ w ∈ b, w.year = y)
        ∧ (bucketsFor (byTypeList works cat)).Pairwise
            (fun b1 b2 => ∀ w1 ∈ b1, ∀ w2 ∈ b2, w2.year < w1.year)
        ∧ ∀ b ∈ bucketsFor (byTypeList works cat), b.Sublist works := by
    intro cat
    set g := byTypeList works cat with hg
    have hgsub : g.Sublist works := List.filter_sublist works
    refine ⟨?_, ?_, ?_⟩
    · intro b hb
      obtain ⟨y, hy, hby⟩ := List.mem_map.mp hb
      constructor
      · obtain ⟨w, hwg, hwy⟩ := mem_getYearsSorted hy
        have hw : w ∈ g.filter (fun w => w.year == y) := by
          rw [List.mem_filter]
          exact ⟨hwg, by simp [hwy]⟩
        rw [hby] at hw
        exact List.ne_nil_of_mem hw
      · refine ⟨y, ?_⟩
        intro w hw
        rw [← hby] at hw
        have h2 := (List.mem_filter.mp hw).2
        simpa using h2
    · unfold bucketsFor
      refine List.Pairwise.map _ ?_ (getYearsSorted_strict g)
      intro y1 y2 hlt w1 hw1 w2 hw2
      have e1 : w1.year = y1 := by simpa using (List.mem_filter.mp hw1).2
      have e2 : w2.year = y2 := by simpa using (List.mem_filter.mp hw2).2
      rw [e1, e2]
      exact hlt
    · intro b hb
      obtain ⟨y, _, hby⟩ := List.mem_map.mp hb
      rw [← hby]
      exact (List.filter_sublist g).trans hgsub
  intro kv hkv
  simp only [groupByTypeAndYear, List.mem_cons, List.not_mem_nil,
    or_false] at hkv
  rcases hkv with h | h | h <;> subst h <;> exact main _

/-- Concrete sample works used to instantiate theorems with hypotheses. -/
def demoWork1 : Work :=
  { title := "A (B) c", year := 2020, workType := "journal-article",
    externalIDs := [{ idType := "doi", value := "10.1/x", url := "" }],
    doiURI := "", path := "/p1" }

/-- A second concrete sample work, of a different category and year. -/
def demoWork2 : Work :=
  { title := "Other work", year := 2019, workType := "report",
    externalIDs := [{ idType := "eid", value := "2-s2.0-1", url := "http://scopus/1" }],
    doiURI := "", path := "/p2" }

/-- The sample input list for witnesses. -/
def demoWorks : List Work := [demoWork1, demoWork2]

/-- Witness for C3: the year-order theorem applied to the concrete
sample list and its first category entry. -/
theorem groupByTypeAndYear_year_order_witness :
    (∀ b ∈ (groupByTypeAndYear demoWorks).head!.2,
        b ≠ [] ∧ ∃ y : Int, ∀ w ∈ b, w.year = y)
      ∧ ((groupByTypeAndYear demoWorks).head!.2).Pairwise
          (fun b1 b2 => ∀ w1 ∈ b1, ∀ w2 ∈ b2, w2.year < w1.year)
      ∧ ∀ b ∈ (groupByTypeAndYear demoWorks).head!.2, b.Sublist demoWorks :=
  groupByTypeAndYear_year_order demoWorks
    (groupByTypeAndYear demoWorks).head! (by simp [groupByTypeAndYear])

/-! ## Batched detail fetch: `fetchWorks` (orcid.go:199-248) -/

/-- The number of batches, `int(math.Ceil(float64(num)/20.0))` in the
source; for any slice length (far below 2^53) the float computation is
exact, so it is the natural-number ceiling of `num / 20`. -/
def batchCount (num : Nat) : Nat := (num + 19) / 20

/-- The batch slices `(*summaries)[start:end]` of the fetch loop, with
`start = 20 n` and `end = min (20 (n+1)) num`. -/
def batchesOf (l : List Work) : List (List Work) :=
  (List.range (batchCount l.length)).map
    (fun n => (l.drop (n * 20)).take (min ((n + 1) * 20) l.length - n * 20))

/-- `fetchWorks` with its two effectful fetches passed in explicitly:
the result of the initial summary fetch, and the per-item detail
fetcher.  Each batch's goroutines send successfully fetched works to
the channel and drop failures after logging them; the channel is
drained once every batch has been joined.  (The fan-in order within a
batch is scheduler-dependent in Go and deliberately unspecified; no
claim depends on it, so completions are modelled in batch order.) -/
def fetchWorksModel (summariesResult : Except String (List Work))
    (fetchDetail : Work → Except String Work) : Except String (List Work) :=
  match summariesResult with
  | .error e => .error e
  | .ok summaries =>
    .ok (((batchesOf summaries).map
      (fun batch => batch.filterMap (fun w => (fetchDetail w).toOption))).flatten)

theorem batchesOf_nil : batchesOf [] = [] := rfl

theorem batchesOf_cons (l : List Work) (h : l ≠ []) :
    batchesOf l = l.take 20 :: batchesOf (l.drop 20) := by
  have hnum : 1 ≤ l.length := List.length_pos.mpr h
  unfold batchesOf
  have hk : batchCount l.length = batchCount (l.drop 20).length + 1 := by
    rw [List.length_drop]
    unfold batchCount
    omega
  rw [hk, List.range_succ_eq_map, List.map_cons, List.map_map]
  congr 1
  · simp only [Nat.zero_mul, List.drop_zero, Nat.sub_zero, Nat.one_mul]
    rcases Nat.le_total 20 l.length with h20 | h20
    · rw [Nat.min_eq_left h20]
    · rw [Nat.min_eq_right h20, List.take_length, List.take_of_length_le h20]
  · apply List.map_congr_left
    intro n hn
    have hn2 : n < batchCount (l.drop 20).length := List.mem_range.mp hn
    rw [List.length_drop] at hn2
    simp only [Function.comp_apply, List.drop_drop, List.length_drop]
    have hd : 20 + n * 20 = (n + 1) * 20 := by ring
    rw [hd]
    congr 1
    unfold batchCount at hn2
    omega

theorem batchesOf_join (l : List Work) : (batchesOf l).flatten = l := by
  by_cases h : l = []
  · subst h; rfl
  · rw [batchesOf_cons l h, List.flatten_cons, batchesOf_join (l.drop 20),
      List.take_append_drop]
termination_by l.length
decreasing_by
  have h1 : 0 < l.length := List.length_pos.mpr h
  simp only [List.length_drop]
  omega

/-- C9: the detail fetch issues at most 20 requests per batch, batches
are joined before the next batch starts (modelled by the sequential
batch list consumed by `fetchWorksModel`), and the batches partition
the summary list in order, so no more than 20 detail requests are ever
in flight simultaneously. -/
theorem fetchWorks_bounded_concurrency (summaries : List Work) :
    (∀ b ∈ batchesOf summaries, b.length ≤ 20)
      ∧ (batchesOf summaries).flatten = summaries := by
  constructor
  · intro b hb
    unfold batchesOf at hb
    obtain ⟨n, _, hbn⟩ := List.mem_map.mp hb
    rw [← hbn, List.length_take]
    omega
  · exact batchesOf_join summaries

/-- Witness for C9 at a concrete summary list. -/
theorem fetchWorks_bounded_concurrency_witness :
    ((batchesOf demoWorks).head!).length ≤ 20
      ∧ (batchesOf demoWorks).flatten = demoWorks :=
  ⟨(fetchWorks_bounded_concurrency demoWorks).1 _ (by decide),
    (fetchWorks_bounded_concurrency demoWorks).2⟩

/-- C4: the batch fetch returns an error exactly when and as the
initial summary fetch failed; a per-item detail failure only drops
that item from the result and never aborts the batch: the output
consists precisely of the successfully fetched details. -/
theorem fetchWorks_error_iff (s : Except String (List Work))
    (f : Work → Except String Work) :
    (∀ e, fetchWorksModel s f = .error e ↔ s = .error e)
      ∧ (∀ ws, s = .ok ws →
          ∃ res, fetchWorksModel s f = .ok res
            ∧ (∀ v ∈ res, ∃ w ∈ ws, f w = .ok v)
            ∧ (∀ w ∈ ws, ∀ v, f w = .ok v → v ∈ res)) := by
  cases s with
  | error e =>
    constructor
    · intro e2
      simp [fetchWorksModel]
    · intro ws hws
      exact absurd hws (by simp)
  | ok ws =>
    constructor
    · intro e2
      simp [fetchWorksModel]
    · intro ws2 hws
      have hws2 : ws2 = ws := by
        injection hws with h
        exact h.symm
      subst hws2
      refine ⟨_, rfl, ?_, ?_⟩
      · intro v hv
        obtain ⟨sub, hsub, hvsub⟩ := List.mem_flatten.mp hv
        obtain ⟨batch, hbatch, hsubeq⟩ := List.mem_map.mp hsub
        rw [← hsubeq] at hvsub
        obtain ⟨w, hwb, hwv⟩ := List.mem_filterMap.mp hvsub
        refine ⟨w, ?_, ?_⟩
        · rw [← batchesOf_join ws2]
          exact List.mem_flatten.mpr ⟨batch, hbatch, hwb⟩
        · cases hf : f w with
          | error e => rw [hf] at hwv; simp [Except.toOption] at hwv
          | ok v2 =>
            rw [hf] at hwv
            simp only [Except.toOption] at hwv
            injection hwv with h2
            rw [h2]
      · intro w hw v hfv
        rw [← batchesOf_join ws2] at hw
        obtain ⟨batch, hbatch, hwb⟩ := List.mem_flatten.mp hw
        apply List.mem_flatten.mpr
        refine ⟨batch.filterMap (fun w => (f w).toOption), ?_, ?_⟩
        · exact List.mem_map.mpr ⟨batch, hbatch, rfl⟩
        · exact List.mem_filterMap.mpr ⟨w, hwb, by rw [hfv]; rfl⟩

/-- A concrete detail fetcher: fails on the 2019 work, succeeds
elsewhere. -/
def demoFetch (w : Work) : Except String Work :=
  if w.year == 2019 then .error "fetch failed" else .ok w

/-- Witness for C4: at the concrete summary list, the failing item is
dropped and the successful one kept, with no error returned. -/
theorem fetchWorks_error_iff_witness :
    (∃ res, fetchWorksModel (.ok demoWorks) demoFetch = .ok res
        ∧ (∀ v ∈ res, ∃ w ∈ demoWorks, demoFetch w = .ok v)
        ∧ (∀ w ∈ demoWorks, ∀ v, demoFetch w = .ok v → v ∈ res))
      ∧ fetchWorksModel (.ok demoWorks) demoFetch = .ok [demoWork1] :=
  ⟨(fetchWorks_error_iff (.ok demoWorks) demoFetch).2 demoWorks rfl, rfl⟩

/-! ## External-ID URL backfill: `updateExternalIDsURL` (orcid.go:318-343) -/

/-- One iteration of the inner loop of `updateExternalIDsURL`, acting on
the state (external IDs written so far, current `DoiURI`): `uri` is
reset to `""`, the `doi` case either copies the present URL or
synthesizes `http://doi.org/{value}` (or, with both empty, `continue`s
without any assignment), the `eid` case falls through to the URL
assignment with `uri` still empty, and the default case `continue`s. -/
def extIDStep (st : List ExternalID × String) (id : ExternalID) :
    List ExternalID × String :=
  if id.idType = "doi" then
    if id.url.length > 0 then (st.1 ++ [{ id with url := id.url }], id.url)
    else if id.value.length > 0 then
      (st.1 ++ [{ id with url := "http://doi.org/" ++ id.value }],
        "http://doi.org/" ++ id.value)
    else (st.1 ++ [id], st.2)
  else if id.idType = "eid" then
    (st.1 ++ [{ id with url := "" }], st.2)
  else (st.1 ++ [id], st.2)

/-- The per-work body of `updateExternalIDsURL`. -/
def updateWorkExternalIDs (w : Work) : Work :=
  let st := w.externalIDs.foldl extIDStep ([], w.doiURI)
  { w with externalIDs := st.1, doiURI := st.2 }

/-- `updateExternalIDsURL` of orcid.go, over a slice of works. -/
def updateExternalIDsURL (works : List Work) : List Work :=
  works.map updateWorkExternalIDs

/-- How a single external ID's URL field ends up after the backfill
(the per-ID update does not depend on the loop state). -/
def updateID (id : ExternalID) : ExternalID :=
  if id.idType = "doi" then
    if id.url.length > 0 then { id with url := id.url }
    else if id.value.length > 0 then
      { id with url := "http://doi.org/" ++ id.value }
    else id
  else if id.idType = "eid" then { id with url := "" }
  else id

/-- How the `DoiURI` accumulator evolves over one external ID. -/
def doiStep (acc : String) (id : ExternalID) : String :=
  if id.idType = "doi" then
    if id.url.length > 0 then id.url
    else if id.value.length > 0 then "http://doi.org/" ++ id.value
    else acc
  else acc

theorem foldl_extIDStep (ids : List ExternalID) :
    ∀ (pre : List ExternalID) (d : String),
      ids.foldl extIDStep (pre, d)
        = (pre ++ ids.map updateID, ids.foldl doiStep d) := by
  induction ids with
  | nil => intro pre d; simp
  | cons id rest ih =>
    intro pre d
    simp only [List.foldl_cons, List.map_cons]
    by_cases h1 : id.idType = "doi" <;> by_cases h2 : id.url.length > 0 <;>
      by_cases h3 : id.value.length > 0 <;>
      by_cases h4 : id.idType = "eid" <;>
      simp [extIDStep, updateID, doiStep, h1, h2, h3, h4, ih]

theorem updateWork_externalIDs_eq (w : Work) :
    (updateWorkExternalIDs w).externalIDs = w.externalIDs.map updateID := by
  unfold updateWorkExternalIDs
  rw [foldl_extIDStep]
  simp

theorem updateWork_doiURI_eq (w : Work) :
    (updateWorkExternalIDs w).doiURI
      = w.externalIDs.foldl doiStep w.doiURI := by
  unfold updateWorkExternalIDs
  rw [foldl_extIDStep]

theorem string_ne_empty_iff (s : String) : s ≠ "" ↔ s.length > 0 := by
  cases s with
  | mk data =>
    rw [Ne, String.ext_iff]
    simp only [String.length_mk]
    cases data <;> simp

theorem doiOrg_ne_empty (v : String) : "http://doi.org/" ++ v ≠ "" := by
  rw [string_ne_empty_iff, String.length_append]
  have h : ("http://doi.org/" : String).length = 15 := rfl
  omega

theorem foldl_doiStep_ne_empty (ids : List ExternalID) :
    ∀ d : String,
      ids.foldl doiStep d ≠ ""
        ↔ (d ≠ "" ∨ ∃ id ∈ ids,
            id.idType = "doi" ∧ (id.url ≠ "" ∨ id.value ≠ "")) := by
  induction ids with
  | nil => intro d; simp
  | cons id rest ih =>
    intro d
    simp only [List.foldl_cons, List.mem_cons]
    by_cases h1 : id.idType = "doi"
    · by_cases h2 : id.url.length > 0
      · rw [show doiStep d id = id.url by simp [doiStep, h1, h2], ih]
        have hu : id.url ≠ "" := (string_ne_empty_iff _).mpr h2
        constructor
        · intro _
          exact Or.inr ⟨id, Or.inl rfl, h1, Or.inl hu⟩
        · intro _
          exact Or.inl hu
      · by_cases h3 : id.value.length > 0
        · rw [show doiStep d id = "http://doi.org/" ++ id.value by
            simp [doiStep, h1, h2, h3], ih]
          have hv : id.value ≠ "" := (string_ne_empty_iff _).mpr h3
          constructor
          · intro _
            exact Or.inr ⟨id, Or.inl rfl, h1, Or.inr hv⟩
          · intro _
            exact Or.inl (doiOrg_ne_empty id.value)
        · rw [show doiStep d id = d by simp [doiStep, h1, h2, h3], ih]
          have hu : id.url = "" := by
            by_contra hc
            exact h2 ((string_ne_empty_iff _).mp hc)
          have hv : id.value = "" := by
            by_contra hc
            exact h3 ((string_ne_empty_iff _).mp hc)
          constructor
          · rintro (hd | hex)
            · exact Or.inl hd
            · exact Or.inr (by
                obtain ⟨j, hj, hjp⟩ := hex
                exact ⟨j, Or.inr hj, hjp⟩)
          · rintro (hd | ⟨j, hj | hj, hjp⟩)
            · exact Or.inl hd
            · subst hj
              rcases hjp.2 with hx | hx
              · exact absurd hu hx
              · exact absurd hv hx
            · exact Or.inr ⟨j, hj, hjp⟩
    · rw [show doiStep d id = d by simp [doiStep, h1], ih]
      constructor
      · rintro (hd | ⟨j, hj, hjp⟩)
        · exact Or.inl hd
        · exact Or.inr ⟨j, Or.inr hj, hjp⟩
      · rintro (hd | ⟨j, hj | hj, hjp⟩)
        · exact Or.inl hd
        · subst hj
          exact absurd hjp.1 h1
        · exact Or.inr ⟨j, hj, hjp⟩

theorem foldl_doiStep_no_doi (ids : List ExternalID)
    (h : ∀ j ∈ ids, j.idType ≠ "doi") :
    ∀ d : String, ids.foldl doiStep d = d := by
  induction ids with
  | nil => intro d; rfl
  | cons id rest ih =>
    intro d
    simp only [List.foldl_cons]
    rw [show doiStep d id = d by
      simp [doiStep, h id (List.mem_cons_self id rest)]]
    exact ih (fun j hj => h j (List.mem_cons_of_mem id hj)) d

theorem foldl_doiStep_single (ids : List ExternalID) (id : ExternalID)
    (hf : ids.filter (fun i => i.idType == "doi") = [id])
    (hu : id.url = "") (hv : id.value ≠ "") :
    ∀ d : String, ids.foldl doiStep d = "http://doi.org/" ++ id.value := by
  induction ids with
  | nil => intro d; simp at hf
  | cons j rest ih =>
    intro d
    simp only [List.foldl_cons]
    by_cases h1 : j.idType = "doi"
    · rw [List.filter_cons_of_pos (by simp [h1])] at hf
      injection hf with hj hrest
      subst hj
      have hrest2 : ∀ i ∈ rest, i.idType ≠ "doi" := by
        intro i hi
        have := List.filter_eq_nil_iff.mp hrest i hi
        simpa using this
      rw [foldl_doiStep_no_doi rest hrest2]
      have h2 : ¬ j.url.length > 0 := by
        rw [hu]
        simp
      have h3 : j.value.length > 0 := (string_ne_empty_iff _).mp hv
      simp [doiStep, h1, h2, h3]
    · rw [List.filter_cons_of_neg (by simp [h1])] at hf
      rw [show doiStep d j = d by simp [doiStep, h1]]
      exact ih hf d

/-- C6: on works whose `DoiURI` starts empty (freshly decoded), the
backfill leaves `DoiURI` nonempty exactly when some external ID of kind
`doi` has a nonempty URL or a nonempty identifier value; and when the
single `doi`-kind ID carries only a value, `DoiURI` becomes the
synthesized `http://doi.org/{value}`. -/
theorem updateExternalIDsURL_doi_iff (ws : List Work)
    (hws : ∀ w ∈ ws, w.doiURI = "") :
    updateExternalIDsURL ws = ws.map updateWorkExternalIDs
      ∧ ∀ w ∈ ws,
          ((updateWorkExternalIDs w).doiURI ≠ ""
              ↔ ∃ id ∈ w.externalIDs,
                  id.idType = "doi" ∧ (id.url ≠ "" ∨ id.value ≠ ""))
            ∧ ∀ id : ExternalID,
                w.externalIDs.filter (fun i => i.idType == "doi") = [id] →
                id.url = "" → id.value ≠ "" →
                (updateWorkExternalIDs w).doiURI
                  = "http://doi.org/" ++ id.value := by
  refine ⟨rfl, ?_⟩
  intro w hw
  constructor
  · rw [updateWork_doiURI_eq, foldl_doiStep_ne_empty, hws w hw]
    simp
  · intro id hf hu hv
    rw [updateWork_doiURI_eq]
    exact foldl_doiStep_single w.externalIDs id hf hu hv w.doiURI

/-- Witness for C6: the concrete sample list has empty initial
`DoiURI`s; the first work's lone `doi` ID carries only a value, so its
`DoiURI` becomes the synthesized URL. -/
theorem updateExternalIDsURL_doi_iff_witness :
    ((updateWorkExternalIDs demoWork1).doiURI ≠ ""
        ↔ ∃ id ∈ demoWork1.externalIDs,
            id.idType = "doi" ∧ (id.url ≠ "" ∨ id.value ≠ ""))
      ∧ (updateWorkExternalIDs demoWork1).doiURI
          = "http://doi.org/" ++ "10.1/x" := by
  have h := (updateExternalIDsURL_doi_iff demoWorks (by decide)).2
    demoWork1 (by decide)
  refine ⟨h.1, ?_⟩
  exact h.2 { idType := "doi", value := "10.1/x", url := "" } (by decide)
    (by decide) (by decide)

/-- C10: the backfill rewrites each external ID independently of the
others; every `eid`-kind ID's URL is overwritten with the empty string
(erasing any URL that was present), while IDs of kinds other than `doi`
and `eid` are left unchanged. -/
theorem updateExternalIDsURL_eid_erased (ws : List Work) :
    updateExternalIDsURL ws = ws.map updateWorkExternalIDs
      ∧ ∀ w ∈ ws,
          (updateWorkExternalIDs w).externalIDs = w.externalIDs.map updateID
            ∧ ∀ id ∈ w.externalIDs,
                (id.idType = "eid" → updateID id = { id with url := "" })
                  ∧ (id.idType ≠ "eid" → id.idType ≠ "doi" →
                      updateID id = id) := by
  refine ⟨rfl, ?_⟩
  intro w _
  refine ⟨updateWork_externalIDs_eq w, ?_⟩
  intro id _
  constructor
  · intro he
    have hd : id.idType ≠ "doi" := by
      rw [he]
      decide
    simp [updateID, hd, he]
  · intro he hd
    simp [updateID, hd, he]

/-- Witness for C10: in the concrete sample list, the second work's
`eid` ID had a URL (`http://scopus/1`) and it is erased. -/
theorem updateExternalIDsURL_eid_erased_witness :
    (updateWorkExternalIDs demoWork2).externalIDs
        = [{ idType := "eid", value := "2-s2.0-1", url := "" }]
      ∧ updateID { idType := "eid", value := "2-s2.0-1", url := "http://scopus/1" }
        = { idType := "eid", value := "2-s2.0-1", url := "" } := by
  have h := (updateExternalIDsURL_eid_erased demoWorks).2 demoWork2 (by decide)
  refine ⟨?_, ?_⟩
  · rw [h.1]
    decide
  · exact (h.2 { idType := "eid", value := "2-s2.0-1", url := "http://scopus/1" }
      (by decide)).1 rfl

/-! ## Identifier extraction: `IDFromURL` (library, `IDFromURL` in the
client variant; `orcid.New` extracts the same trimmed path without the
scheme normalization).

The Go standard library's `url.Parse` is modelled for the URL shapes
the repository feeds it: fragment stripping, then on the remainder the
control-character check, query stripping, scheme extraction, the
scheme-with-unrooted-rest case (where the whole rest is kept outside
the path, leaving `Path` empty), the colon-in-first-segment check for
scheme-less inputs, authority splitting after `//`, and
percent-decoding of the path.  Userinfo and host-character validation
are not modelled, so the model is only relied on at concrete,
well-formed inputs where it provably agrees with Go. -/

/-- Does the string start with (all of) the given pattern? Model of Go
`strings.HasPrefix`. -/
def startsWithList : List Char → List Char → Bool
  | _, [] => true
  | [], _ :: _ => false
  | c :: cs, p :: ps => c == p && startsWithList cs ps

/-- Go `stringContainsCTLByte`: any byte below space or DEL; multi-byte
UTF-8 sequences contain no such bytes, so a per-character check is
equivalent. -/
def containsCTL (s : List Char) : Bool :=
  s.any (fun c => c.toNat < 32 || c.toNat == 127)

/-- Everything before the first occurrence of `c` (Go `split(s, c, true)`,
keeping the left part). -/
def beforeChar (s : List Char) (c : Char) : List Char :=
  s.takeWhile (fun a => !(a == c))

/-- Go `net/url.getScheme`: scan for a `scheme:` head.  Letters
continue; digits and `+`/`-`/`.` continue except in first position
(then: no scheme); `:` in first position is an error (missing protocol
scheme), otherwise ends the scheme; any other character means no
scheme. -/
def getSchemeLoop (rawurl : List Char) : Nat → List Char →
    Except Unit (List Char × List Char)
  | _, [] => .ok ([], rawurl)
  | i, c :: cs =>
    if c.isAlpha then getSchemeLoop rawurl (i + 1) cs
    else if c.isDigit || c == '+' || c == '-' || c == '.' then
      if i == 0 then .ok ([], rawurl) else getSchemeLoop rawurl (i + 1) cs
    else if c == ':' then
      if i == 0 then .error ()
      else .ok (rawurl.take i, rawurl.drop (i + 1))
    else .ok ([], rawurl)

/-- Is `c` an ASCII hexadecimal digit? -/
def isHexDigit (c : Char) : Bool :=
  ('0' ≤ c && c ≤ '9') || ('a' ≤ c && c ≤ 'f') || ('A' ≤ c && c ≤ 'F')

/-- The value of an ASCII hexadecimal digit. -/
def hexDigitVal (c : Char) : Nat :=
  if '0' ≤ c ∧ c ≤ '9' then c.toNat - 48
  else if 'a' ≤ c ∧ c ≤ 'f' then c.toNat - 87
  else if 'A' ≤ c ∧ c ≤ 'F' then c.toNat - 55
  else 0

/-- Percent-decoding of a URL path (Go `unescape` in path mode): `%`
must be followed by two hex digits, otherwise `url.Parse` fails with an
invalid-escape error. -/
def unescapePath : List Char → Except Unit (List Char)
  | [] => .ok []
  | '%' :: c1 :: c2 :: rest =>
    if isHexDigit c1 && isHexDigit c2 then
      match unescapePath rest with
      | .error e => .error e
      | .ok r => .ok (Char.ofNat (16 * hexDigitVal c1 + hexDigitVal c2) :: r)
    else .error ()
  | '%' :: rest =>
    match rest with
    | _ => .error ()
  | c :: rest =>
    match unescapePath rest with
    | .error e => .error e
    | .ok r => .ok (c :: r)

/-- The `Path` component produced by Go `url.Parse` (the only component
the repository consumes), or a parse error. -/
def urlParsePath (s : List Char) : Except Unit (List Char) :=
  let s1 := beforeChar s '#'
  if containsCTL s1 then .error ()
  else
    match getSchemeLoop s1 0 s1 with
    | .error e => .error e
    | .ok (scheme, rest0) =>
      let rest1 := beforeChar rest0 '?'
      if !(startsWithList rest1 ['/']) && !(scheme.isEmpty) then
        .ok []
      else if !(startsWithList rest1 ['/']) && scheme.isEmpty
          && (rest1.takeWhile (fun a => !(a == '/'))).any (fun a => a == ':') then
        .error ()
      else
        let rest2 :=
          if (!(scheme.isEmpty) || !(startsWithList rest1 ['/', '/', '/']))
              && startsWithList rest1 ['/', '/'] then
            (rest1.drop 2).dropWhile (fun a => !(a == '/'))
          else rest1
        unescapePath rest2

/-- Go `strings.Trim(s, string(c))`: remove every leading and trailing
occurrence of `c`. -/
def goTrimChar (s : List Char) (c : Char) : List Char :=
  ((s.dropWhile (fun a => a == c)).reverse.dropWhile (fun a => a == c)).reverse

/-- The scheme normalization at the head of `IDFromURL`: prepend
`https://` unless the input already starts with `http`. -/
def normalizeSchemeInput (s : String) : List Char :=
  if startsWithList s.data ['h', 't', 't', 'p'] then s.data
  else "https://".data ++ s.data

/-- `IDFromURL` of the library: normalize the scheme, parse as a URL,
and return the path trimmed of leading and trailing slashes.  A parse
failure is returned as an error; an empty trimmed path is returned as
a successful empty identifier. -/
def IDFromURL (s : String) : Except Unit String :=
  match urlParsePath (normalizeSchemeInput s) with
  | .error e => .error e
  | .ok path => .ok (String.mk (goTrimChar path '/'))

/-- C5 counterexample: on `https://orcid.org` the extracted path
component is empty, yet `IDFromURL` succeeds and returns the empty
identifier instead of failing (there is no emptiness check; callers
must use `ID.IsEmpty`); and a bare identifier gains the prepended
`https://` scheme, becomes the URL host, and therefore also yields the
empty — not the non-empty — identifier. -/
theorem IDFromURL_empty_ok :
    IDFromURL "https://orcid.org" = .ok ""
      ∧ IDFromURL "0000-0002-0183-1282" = .ok ""
      ∧ ¬ ∃ e, IDFromURL "https://orcid.org" = Except.error e := by
  have h : IDFromURL "https://orcid.org" = .ok "" := rfl
  refine ⟨h, rfl, ?_⟩
  rintro ⟨e, he⟩
  rw [h] at he
  exact Except.noConfusion he

/-- C5 (amended): `IDFromURL` fails only when the scheme-normalized
input fails to parse as a URL, never because the extracted identifier
is empty: a full URL, a host-relative path, a double-slashed URL, a
triple-slashed host-relative path, and a trailing-slash URL (the test
suite's five inputs) yield the expected non-empty identifier; a bare
identifier becomes the host of the normalized URL and yields the empty
identifier with no error; a control character makes parsing, and hence
`IDFromURL`, fail. -/
theorem IDFromURL_behavior :
    IDFromURL "https://orcid.org/0000-0002-0183-1282"
        = .ok "0000-0002-0183-1282"
      ∧ IDFromURL "orcid.org/0000-0003-1928-5141"
          = .ok "0000-0003-1928-5141"
      ∧ IDFromURL "http://orcid.org//0000-0002-0183-1282"
          = .ok "0000-0002-0183-1282"
      ∧ IDFromURL "orcid.org///0000-0002-0183-1282"
          = .ok "0000-0002-0183-1282"
      ∧ IDFromURL "https://orcid.org/0000-0002-0183-1282/"
          = .ok "0000-0002-0183-1282"
      ∧ IDFromURL "0000-0002-0183-1282" = .ok ""
      ∧ (∃ e, IDFromURL "https://orcid.org/\x01x" = .error e) :=
  ⟨rfl, rfl, rfl, rfl, rfl, rfl, ⟨(), rfl⟩⟩

/-! ## IEEE citation parsing: `parseCitationAuthorsIEEE`
(cmd/orcid-pull/citations.go:22-67)

The two Go regular expressions are modelled directly for their
leftmost-then-greedy matching semantics: `.` does not match a newline,
so any match lies within one line; the leftmost match is in the first
line containing the tail pattern, and the greedy `.*` extends the match
to the last occurrence of the tail pattern in that line. -/

/-- Is `c` an ASCII decimal digit (regex `\d`)? -/
def isDigitChar (c : Char) : Bool := '0' ≤ c && c ≤ '9'

/-- Does the reversed string end (i.e. start, reversed) with the tail
pattern `\(\d{4}\)` of regex A? -/
def yearParenSuffix : List Char → Bool
  | ')' :: d4 :: d3 :: d2 :: d1 :: '(' :: _ =>
    isDigitChar d1 && isDigitChar d2 && isDigitChar d3 && isDigitChar d4
  | _ => false

/-- Peel characters off the end of a line (head of the reversed list)
until the year-parenthesis pattern closes the remaining prefix: the
greedy longest match, reversed. -/
def longestYearParenRev : List Char → Option (List Char)
  | [] => none
  | c :: rest =>
    if yearParenSuffix (c :: rest) then some (c :: rest)
    else longestYearParenRev rest

/-- A word character, regex `\w`: `[0-9A-Za-z_]`. -/
def isWordChar (c : Char) : Bool :=
  ('0' ≤ c && c ≤ '9') || ('a' ≤ c && c ≤ 'z') ||
    ('A' ≤ c && c ≤ 'Z') || c == '_'

/-- The character class `[\W|,|.|\s]` of regex B.  Inside a class `|`,
`,` and `.` are literals and `\s` is whitespace; all of those are
already non-word characters, so the class is exactly `\W`. -/
def classB (c : Char) : Bool := !(isWordChar c)

/-- Does the reversed string end with the tail pattern
`[\W|,|.|\s]{2,}"` of regex B (a quote preceded by at least two class
characters; the greedy `.*` absorbs any further ones)? -/
def quoteClassSuffix : List Char → Bool
  | '"' :: c1 :: c2 :: _ => classB c1 && classB c2
  | _ => false

/-- Greedy longest match for regex B within one line, reversed. -/
def longestQuoteRev : List Char → Option (List Char)
  | [] => none
  | c :: rest =>
    if quoteClassSuffix (c :: rest) then some (c :: rest)
    else longestQuoteRev rest

/-- Split a string into its lines (separator `\n`, which `.` does not
match). -/
def splitLinesAux (cur : List Char) : List Char → List (List Char)
  | [] => [cur.reverse]
  | c :: rest =>
    if c == '\n' then cur.reverse :: splitLinesAux [] rest
    else splitLinesAux (c :: cur) rest

/-- The lines of a string. -/
def splitLines (s : List Char) : List (List Char) :=
  splitLinesAux [] s

/-- `re.FindStringSubmatch` entry 0 for ``.*\(\d{4}\)``: first line
containing the year-parenthesis pattern, matched up to its last
occurrence there. -/
def regexpMatchYearParen (s : List Char) : Option (List Char) :=
  (splitLines s).findSome?
    (fun line => (longestYearParenRev line.reverse).map List.reverse)

/-- `re.FindStringSubmatch` entry 0 for ``.*[\W|,|.|\s]{2,}"``. -/
def regexpMatchQuote (s : List Char) : Option (List Char) :=
  (splitLines s).findSome?
    (fun line => (longestQuoteRev line.reverse).map List.reverse)

/-- `parseCitationAuthorsIEEE` of citations.go.  The strict-BibTeX
branch delegates to the external `github.com/nickng/bibtex` library and
is represented by an error marker; no input considered here begins with
`@`.  (Go's `match[:len(match)-7]` would panic on a match shorter than
7 characters; natural-number subtraction truncates instead, a case no
match of regex A with its 6-character tail plus leading text reaches.) -/
def parseCitationAuthorsIEEE (s : String) : Except Unit String :=
  if startsWithList (goTrimChar s.data ' ') ['@'] then .error ()
  else
    match regexpMatchYearParen s.data with
    | some m =>
      let m1 := m.take (m.length - 7)
      .ok (String.mk
        (goTrimChar (goTrimChar (goTrimChar (goTrimChar m1 '"') ' ') '.') ','))
    | none =>
      match regexpMatchQuote s.data with
      | some m =>
        .ok (String.mk
          (goTrimChar (goTrimChar (goTrimChar (goTrimChar m '"') ' ') '.') ','))
      | none => .error ()

/-- The literal IEEE-formatted citation of the spec's test case. -/
def citationIEEE : String :=
  "Saoni Banerji, R.Senthil Kumar (2010). Diagnosis of Systems Via Condition Monitoring Based on Time Frequency Representations"

/-- C7: on the literal citation, regex A matches the leading text up to
the 4-digit parenthesized year, the trailing 7 characters are removed,
the surrounding-character trims leave the text unchanged, and exactly
the author string is returned. -/
theorem parseCitationAuthorsIEEE_literal :
    parseCitationAuthorsIEEE citationIEEE = .ok "Saoni Banerji, R.Senthil Kumar"
      ∧ regexpMatchYearParen citationIEEE.data
          = some ("Saoni Banerji, R.Senthil Kumar (2010)".data) :=
  ⟨rfl, rfl⟩

/-! ## Concrete instantiations of the universally quantified theorems -/

/-- A work whose title normalizes identically to `demoWork1`'s. -/
def dupWork : Work :=
  { title := "ab C", year := 2021, workType := "journal-article",
    externalIDs := [], doiURI := "", path := "/p3" }

/-- Witness for C8: idempotence at a concrete title, whose
normalization is `abc`. -/
theorem simplifyString_idem_witness :
    simplifyString (simplifyString "A (B) c") = simplifyString "A (B) c"
      ∧ simplifyString "A (B) c" = "abc" :=
  ⟨simplifyString_idem "A (B) c", rfl⟩

/-- Witness for C1: on a concrete list with a duplicated normalized
title, the duplicate (and only it) is dropped, keeping first
occurrences in order. -/
theorem filterUniqueTitles_correct_witness :
    filterUniqueTitles [demoWork1, dupWork, demoWork2]
        = firstOccurrencesSpec [demoWork1, dupWork, demoWork2]
      ∧ filterUniqueTitles [demoWork1, dupWork, demoWork2]
        = [demoWork1, demoWork2] :=
  ⟨(filterUniqueTitles_correct [demoWork1, dupWork, demoWork2]).2.2, by decide⟩

/-- Witness for C2: completeness at the concrete sample list. -/
theorem groupByTypeAndYear_complete_witness :
    ((groupByTypeAndYear demoWorks).map
          (fun kv => (kv.2.map List.length).sum)).sum = demoWorks.length
      ∧ (groupByTypeAndYear demoWorks).map Prod.fst
        = [catJournal, catConference, catOther] :=
  groupByTypeAndYear_complete demoWorks

end OrcidRepo
